import Mathlib

/-!
Verification of the fixed-capacity AVL tree in
src/include/container/avl_tree.hpp.

The tree is embedded shallowly: nodes become an inductive type `ITree`
carrying the stored height `h` exactly as the C++ `node` struct does, and
additionally the index of the pool slot the node lives in (the `id` field
models the value of the `node*` pointer relative to `pool_`), which lets the
free-list allocator be modelled faithfully.  Keys and values are
instantiated at `Int` with the default comparison predicate
`std::less<int>`, i.e. `(· < ·)`.  The `std::size_t` member `size_` is
modelled as a natural number maintained modulo `2 ^ 64`.
-/

/-- Width of `std::size_t` arithmetic. -/
def W : Nat := 2 ^ 64

/-- A (sub)tree of `avl_tree<int, int>` nodes.  `nil` is the null pointer.
`node id left h key v right` mirrors the fields of `struct node`
(`left`, `right`, `h`, `key`, `v`); `id` is the slot index of the node in
`pool_`, i.e. the identity of the pointer. -/
inductive ITree where
  | nil : ITree
  | node (id : Nat) (left : ITree) (h : Int) (key : Int) (v : Int) (right : ITree) : ITree
deriving DecidableEq, Repr

namespace ITree

/-- `height(node *x) { return x ? x->h : 0; }` -/
def height : ITree → Int
  | .nil => 0
  | .node _ _ h _ _ _ => h

/-- `x->c[i]`: indexed child access through the union (`0`: left, `1`: right). -/
def child : ITree → Int → ITree
  | .nil, _ => .nil
  | .node _ l _ _ _ _, 0 => l
  | .node _ _ _ _ _ r, _ => r

/-- `x->c[i] = c`. -/
def setChild : ITree → Int → ITree → ITree
  | .nil, _, _ => .nil
  | .node i _ h k v r, 0, c => .node i c h k v r
  | .node i l h k v _, _, c => .node i l h k v c

/-- `x->h = h`. -/
def setH : ITree → Int → ITree
  | .nil, _ => .nil
  | .node i l _ k v r, h => .node i l h k v r

/-- `reheight(node *x) { return max(height(x->left), height(x->right)) + 1; }` -/
def reheight (x : ITree) : Int :=
  max (height (child x 0)) (height (child x 1)) + 1

/-- `bias(node *x) { return height(x->left) - height(x->right); }` -/
def bias (x : ITree) : Int :=
  height (child x 0) - height (child x 1)

/-- `rotate(node *x, sides_t i, sides_t j)`: the i-rotation around the link
from `x` to its `j`-child, in the statement order of the source
(`x->c[j] = y->c[i]; y->c[i] = x; x->h = reheight(x); y->h = reheight(y);`,
where the height update of `x` is visible through `y`'s pointer to `x`). -/
def rotate (x : ITree) (i j : Int) : ITree :=
  let y := child x j
  let x1 := setChild x j (child y i)
  let x2 := setH x1 (reheight x1)
  let y1 := setChild y i x2
  setH y1 (reheight y1)

/-- `balance(node *x)`. -/
def balance (x : ITree) : ITree :=
  let x := setH x (reheight x)
  if bias x > 1 then
    let x := if bias (child x 0) < 0 then setChild x 0 (rotate (child x 0) 0 1) else x
    rotate x 1 0
  else if bias x < -1 then
    let x := if bias (child x 1) > 0 then setChild x 1 (rotate (child x 1) 1 0) else x
    rotate x 0 1
  else x

/-- `x->key` (0 on the null pointer, never used there). -/
def key : ITree → Int
  | .nil => 0
  | .node _ _ _ k _ _ => k

/-- `insert(node *x, node *z)`: `cmp_(z->key, x->key) ? x->left = insert(x->left, z)
: x->right = insert(x->right, z); return balance(x);` -/
def insertN : ITree → ITree → ITree
  | .nil, z => z
  | .node i l h k v r, z =>
    if key z < k then balance (.node i (insertN l z) h k v r)
    else balance (.node i l h k v (insertN r z))

/-- `find(node *x, const Key &k)`: the while loop
`while (x != nullptr && neq(x->key, k)) { if (cmp_(x->key, k)) x = x->left; else x = x->right; }`
rendered as structural recursion (one unfolding per iteration). -/
def findN : ITree → Int → Option Int
  | .nil, _ => none
  | .node _ l _ xk xv r, k =>
    if xk < k ∨ k < xk then
      if xk < k then findN l k else findN r k
    else some xv

/-- `leftmost(node *x) { return x->left ? leftmost(x->left) : x; }` -/
def leftmost : ITree → ITree
  | .nil => .nil
  | .node i l h k v r => if l = .nil then .node i l h k v r else leftmost l

/-- `erase__(node *x)`: removes the leftmost node of the subtree `x`. -/
def eraseLM : ITree → ITree
  | .nil => .nil
  | .node i l h k v r => if l = .nil then r else balance (.node i (eraseLM l) h k v r)

/-- `erase(node *x, const Key &k)`, threading the free list `free_` through
the call so that `destroy_node(x)` (which pushes `x` onto the free list) can
be modelled; returns the new subtree and the new free list. -/
def eraseN : ITree → Int → List Nat → ITree × List Nat
  | .nil, _, f => (.nil, f)
  | .node i l h k v r, kk, f =>
    if kk < k then
      let p := eraseN l kk f
      (balance (.node i p.1 h k v r), p.2)
    else if k < kk then
      let p := eraseN r kk f
      (balance (.node i l h k v p.1), p.2)
    else
      let f1 := i :: f
      if r = .nil then (l, f1)
      else
        match leftmost r with
        | .nil => (.nil, f1)
        | .node iw _ wh wk wv _ => (balance (.node iw l wh wk wv (eraseLM r)), f1)

/-- `inorder(node *x, F fn)`: the list of keys passed to `fn`, in visit order. -/
def inorder : ITree → List Int
  | .nil => []
  | .node _ l _ k _ r => inorder l ++ k :: inorder r

/-- Ghost in-order listing of the live nodes with their slot ids, keys and
values; used to reason about node identity and the allocator. -/
def toList : ITree → List (Nat × Int × Int)
  | .nil => []
  | .node i l _ k v r => toList l ++ (i, k, v) :: toList r

/-- Slot ids of the live nodes, in order. -/
def idsL (t : ITree) : List Nat := (toList t).map (fun a => a.1)

/-- Keys of the live nodes, in order. -/
def keysL (t : ITree) : List Int := (toList t).map (fun a => a.2.1)

/-- Number of live nodes of the (sub)tree. -/
def countNodes (t : ITree) : Nat := (toList t).length

/-- Stored-height correctness: every node satisfies
`h = max (height left) (height right) + 1`. -/
def hOk : ITree → Bool
  | .nil => true
  | .node _ l h _ _ r => hOk l && hOk r && (h == max (height l) (height r) + 1)

/-- Height balance: every node satisfies `|height left - height right| ≤ 1`. -/
def balOk : ITree → Bool
  | .nil => true
  | .node _ l _ _ _ r => balOk l && balOk r && ((height l - height r).natAbs ≤ 1)

/-- BST order as stated by the spec: at every node, all keys of the left
subtree compare strictly less than the node's key and all keys of the right
subtree strictly greater. -/
def bstOk : ITree → Bool
  | .nil => true
  | .node _ l _ k _ r =>
    (inorder l).all (fun a => decide (a < k)) &&
    (inorder r).all (fun a => decide (k < a)) && bstOk l && bstOk r

/-- Does some node of the subtree carry this exact key? -/
def hasKey (t : ITree) (k : Int) : Bool := (inorder t).any (fun a => a == k)

/-- Projections of `leftmost`. -/
def lmId (t : ITree) : Nat :=
  match leftmost t with
  | .nil => 0
  | .node i _ _ _ _ _ => i

def lmH (t : ITree) : Int :=
  match leftmost t with
  | .nil => 0
  | .node _ _ h _ _ _ => h

def lmKey (t : ITree) : Int :=
  match leftmost t with
  | .nil => 0
  | .node _ _ _ k _ _ => k

def lmVal (t : ITree) : Int :=
  match leftmost t with
  | .nil => 0
  | .node _ _ _ _ v _ => v

/-- `balance` instrumented with the number of `rotate` calls it performs. -/
def balanceCnt (x : ITree) : ITree × Nat :=
  let x1 := setH x (reheight x)
  if bias x1 > 1 then
    if bias (child x1 0) < 0 then
      (rotate (setChild x1 0 (rotate (child x1 0) 0 1)) 1 0, 2)
    else (rotate x1 1 0, 1)
  else if bias x1 < -1 then
    if bias (child x1 1) > 0 then
      (rotate (setChild x1 1 (rotate (child x1 1) 1 0)) 0 1, 2)
    else (rotate x1 0 1, 1)
  else (x1, 0)

/-- `rotate` guarded against the null dereference of the pivot `x->c[j]`
(whose fields the rotation reads and writes): `none` models the dereference
of a null pointer. -/
def rotateO (x : ITree) (i j : Int) : Option ITree :=
  match child x j with
  | .nil => none
  | _ => some (rotate x i j)

/-- `balance` guarded against every null dereference it could make: of `x`
itself, of `x->left` or `x->right` inside the inner `bias` call, and of the
pivot inside each `rotate` call. -/
def balanceO (x : ITree) : Option ITree :=
  match x with
  | .nil => none
  | _ =>
    let x1 := setH x (reheight x)
    if bias x1 > 1 then
      if child x1 0 = .nil then none
      else if bias (child x1 0) < 0 then
        match rotateO (child x1 0) 0 1 with
        | none => none
        | some c => rotateO (setChild x1 0 c) 1 0
      else rotateO x1 1 0
    else if bias x1 < -1 then
      if child x1 1 = .nil then none
      else if bias (child x1 1) > 0 then
        match rotateO (child x1 1) 1 0 with
        | none => none
        | some c => rotateO (setChild x1 1 c) 0 1
      else rotateO x1 0 1
    else some x1

end ITree

/-- The four per-node invariants of the spec, over one tree: BST order,
key uniqueness, stored-height correctness, and the AVL balance bound. -/
def AVLInv (t : ITree) : Prop :=
  ITree.bstOk t = true ∧ (ITree.inorder t).Nodup ∧
  ITree.hOk t = true ∧ ITree.balOk t = true

/-- The whole `avl_tree` object: root pointer, capacity `cap_`, the
`std::size_t` counter `size_` (kept modulo `2 ^ 64`), and the free list
`free_` as the list of free slot indices (in link order). -/
structure AVLState where
  root : ITree
  cap : Nat
  size : Nat
  free : List Nat
deriving DecidableEq, Repr

/-- `avl_tree(std::size_t n)`: `allocate_pool` threads `pool_[0] -> pool_[1]
-> ... -> pool_[n-1]` onto the free list (for `n = 0` it returns early,
leaving `free_` null, which coincides with `List.range 0 = []`). -/
def avlNew (n : Nat) : AVLState :=
  { root := .nil, cap := n, size := 0, free := List.range n }

/-- `create_node(k, v)`: pop the head of the free list and placement-construct
`node(k, v)` in it (`left = right = nullptr`, `h = 1`); `none` when
`free_ == nullptr`. -/
def createNode (s : AVLState) (k v : Int) : Option (ITree × AVLState) :=
  match s.free with
  | [] => none
  | x :: rest => some (.node x .nil 1 k v .nil, { s with free := rest })

/-- Result of the public `insert`: either the mutated tree, or the failure of
`assert(z != nullptr)` when `create_node` returned null. -/
inductive InsResult where
  | ok (s : AVLState) : InsResult
  | assertFail : InsResult
deriving DecidableEq, Repr

/-- Public `insert(const Key &k, const T &v)`. -/
def insertPub (s : AVLState) (k v : Int) : InsResult :=
  match createNode s k v with
  | none => .assertFail
  | some (z, s1) => .ok { s1 with root := ITree.insertN s1.root z, size := (s1.size + 1) % W }

/-- Public `erase(const Key &k)`: `root_ = erase(root_, k); size_--;`
(the decrement is unconditional, and wraps at zero as `std::size_t` does). -/
def erasePub (s : AVLState) (k : Int) : AVLState :=
  let p := ITree.eraseN s.root k s.free
  { s with root := p.1, free := p.2, size := (s.size + (W - 1)) % W }

/-- Public `find(const Key &k)`. -/
def findPub (s : AVLState) (k : Int) : Option Int := ITree.findN s.root k

/-- Public `inorder(F fn)`. -/
def inorderPub (s : AVLState) : List Int := ITree.inorder s.root

/-- One public operation on the container. -/
inductive Op where
  | ins (k v : Int) : Op
  | del (k : Int) : Op
  | qry (k : Int) : Op
deriving DecidableEq, Repr

/-- Execute one operation; `none` when `insert` dies on its assertion. -/
def step (s : AVLState) : Op → Option AVLState
  | .ins k v =>
    match insertPub s k v with
    | .ok s1 => some s1
    | .assertFail => none
  | .del k => some (erasePub s k)
  | .qry _ => some s

/-- Execute a sequence of operations. -/
def run (s : AVLState) : List Op → Option AVLState
  | [] => some s
  | o :: os =>
    match step s o with
    | none => none
    | some s1 => run s1 os

/-- Did every `ins` of the sequence present a key absent from the tree at the
moment of insertion? -/
def insFresh (s : AVLState) : List Op → Bool
  | [] => true
  | o :: os =>
    (match o with
     | .ins k _ => !(ITree.hasKey s.root k)
     | _ => true) &&
    (match step s o with
     | none => true
     | some s1 => insFresh s1 os)

/-- Extract the state from a non-failing run (dummy fresh tree otherwise);
used only to name concrete states in closed statements. -/
def stOf : Option AVLState → AVLState
  | some s => s
  | none => avlNew 0

/-- Slot-pool exclusivity: counting multiplicity, the slot ids reachable from
the tree root together with the slot ids on the free list are exactly the
pool's slots `0, ..., cap-1` (each exactly once, in exactly one of the two). -/
def PoolInv (s : AVLState) : Prop :=
  (ITree.idsL s.root : Multiset Nat) + (s.free : Multiset Nat) =
    (List.range s.cap : Multiset Nat)

namespace ITree

theorem height_nil : height .nil = 0 := rfl

theorem height_node {i : Nat} {h k v : Int} {l r : ITree} :
    height (.node i l h k v r) = h := rfl

theorem key_node {i : Nat} {h k v : Int} {l r : ITree} :
    key (.node i l h k v r) = k := rfl

theorem child_nil {j : Int} : child .nil j = .nil := rfl

theorem child_zero {i : Nat} {h k v : Int} {l r : ITree} :
    child (.node i l h k v r) 0 = l := rfl

theorem child_one {i : Nat} {h k v : Int} {l r : ITree} :
    child (.node i l h k v r) 1 = r := rfl

theorem setChild_zero {i : Nat} {h k v : Int} {l r c : ITree} :
    setChild (.node i l h k v r) 0 c = .node i c h k v r := rfl

theorem setChild_one {i : Nat} {h k v : Int} {l r c : ITree} :
    setChild (.node i l h k v r) 1 c = .node i l h k v c := rfl

theorem setH_node {i : Nat} {h h2 k v : Int} {l r : ITree} :
    setH (.node i l h k v r) h2 = .node i l h2 k v r := rfl

theorem toList_nil : toList .nil = [] := rfl

theorem toList_node {i : Nat} {h k v : Int} {l r : ITree} :
    toList (.node i l h k v r) = toList l ++ (i, k, v) :: toList r := rfl

theorem inorder_nil : inorder .nil = [] := rfl

theorem inorder_node {i : Nat} {h k v : Int} {l r : ITree} :
    inorder (.node i l h k v r) = inorder l ++ k :: inorder r := rfl

attribute [simp] height_nil height_node key_node child_nil child_zero child_one
attribute [simp] setChild_zero setChild_one setH_node toList_nil toList_node
attribute [simp] inorder_nil inorder_node

theorem hOk_node {i : Nat} {h k v : Int} {l r : ITree} :
    hOk (.node i l h k v r) = true ↔
      (hOk l = true ∧ hOk r = true ∧ h = max (height l) (height r) + 1) := by
  simp [hOk, and_assoc]

theorem balOk_node {i : Nat} {h k v : Int} {l r : ITree} :
    balOk (.node i l h k v r) = true ↔
      (balOk l = true ∧ balOk r = true ∧ (height l - height r).natAbs ≤ 1) := by
  simp [balOk, and_assoc]

theorem hOk_nil : hOk .nil = true := rfl

theorem balOk_nil : balOk .nil = true := rfl

theorem height_nonneg {t : ITree} (ht : hOk t = true) : 0 ≤ height t := by
  induction t with
  | nil => simp
  | node i l hh k v r ihl ihr =>
    rw [hOk_node] at ht
    obtain ⟨h1, h2, h3⟩ := ht
    have g1 := ihl h1
    have g2 := ihr h2
    rw [height_node, h3]
    omega

theorem rotate_left_node (i j : Nat) (a b c : ITree) (h h2 k v k2 v2 : Int) :
    rotate (.node i a h k v (.node j b h2 k2 v2 c)) 0 1 =
      .node j (.node i a (max (height a) (height b) + 1) k v b)
        (max (max (height a) (height b) + 1) (height c) + 1) k2 v2 c := by
  simp [rotate, reheight]

theorem rotate_right_node (i j : Nat) (a b c : ITree) (h h2 k v k2 v2 : Int) :
    rotate (.node i (.node j a h2 k2 v2 b) h k v c) 1 0 =
      .node j a (max (height a) (max (height b) (height c) + 1) + 1) k2 v2
        (.node i b (max (height b) (height c) + 1) k v c) := by
  simp [rotate, reheight]

theorem balance_node (i : Nat) (h k v : Int) (l r : ITree) :
    balance (.node i l h k v r) =
      (if height l - height r > 1 then
        rotate (if bias l < 0 then
                  .node i (rotate l 0 1) (max (height l) (height r) + 1) k v r
                else .node i l (max (height l) (height r) + 1) k v r) 1 0
      else if height l - height r < -1 then
        rotate (if bias r > 0 then
                  .node i l (max (height l) (height r) + 1) k v (rotate r 1 0)
                else .node i l (max (height l) (height r) + 1) k v r) 0 1
      else .node i l (max (height l) (height r) + 1) k v r) := by
  simp only [balance, reheight, bias, setH_node, child_zero, child_one,
    setChild_zero, setChild_one]

theorem balance_main (i : Nat) (h k v : Int) (l r : ITree)
    (hhl : hOk l = true) (hhr : hOk r = true)
    (hbl : balOk l = true) (hbr : balOk r = true)
    (hd : (height l - height r).natAbs ≤ 2) :
    hOk (balance (.node i l h k v r)) = true ∧
    balOk (balance (.node i l h k v r)) = true ∧
    toList (balance (.node i l h k v r)) = toList l ++ (i, k, v) :: toList r ∧
    max (height l) (height r) ≤ height (balance (.node i l h k v r)) ∧
    height (balance (.node i l h k v r)) ≤ max (height l) (height r) + 1 ∧
    ((height l - height r).natAbs ≤ 1 →
      height (balance (.node i l h k v r)) = max (height l) (height r) + 1) := by
  have hl0 := height_nonneg hhl
  have hr0 := height_nonneg hhr
  rw [balance_node]
  by_cases h1 : height l - height r > 1
  · rw [if_pos h1]
    cases l with
    | nil => exfalso; rw [height_nil] at h1; omega
    | node il ll lh lk lv lr =>
      rw [hOk_node] at hhl
      obtain ⟨hll, hlr, hlh⟩ := hhl
      rw [balOk_node] at hbl
      obtain ⟨bll, blr, blh⟩ := hbl
      have hll0 := height_nonneg hll
      have hlr0 := height_nonneg hlr
      rw [height_node] at h1 hd ⊢
      simp only [bias, child_zero, child_one]
      by_cases h2 : height ll - height lr < 0
      · rw [if_pos h2]
        cases lr with
        | nil => exfalso; rw [height_nil] at h2; omega
        | node j2 a2 lrh k2 v2 b2 =>
          rw [hOk_node] at hlr
          obtain ⟨ha2, hb2, hlrh⟩ := hlr
          rw [balOk_node] at blr
          obtain ⟨ba2, bb2, blrh⟩ := blr
          have ha20 := height_nonneg ha2
          have hb20 := height_nonneg hb2
          rw [height_node] at h2 blh hlh
          rw [rotate_left_node, rotate_right_node]
          refine ⟨?_, ?_, ?_, ?_, ?_, ?_⟩
          · simp only [hOk_node, height_node, hll, ha2, hb2, hhr, true_and] <;> omega
          · simp only [balOk_node, height_node, bll, ba2, bb2, hbr, true_and] <;> omega
          · simp only [toList_node, List.append_assoc, List.cons_append]
          · simp only [height_node] <;> omega
          · simp only [height_node] <;> omega
          · intro hc; exfalso; omega
      · rw [if_neg h2]
        rw [rotate_right_node]
        refine ⟨?_, ?_, ?_, ?_, ?_, ?_⟩
        · simp only [hOk_node, height_node, hll, hlr, hhr, true_and] <;> omega
        · simp only [balOk_node, height_node, bll, blr, hbr, true_and] <;> omega
        · simp only [toList_node, List.append_assoc, List.cons_append]
        · simp only [height_node] <;> omega
        · simp only [height_node] <;> omega
        · intro hc; exfalso; omega
  · rw [if_neg h1]
    by_cases h3 : height l - height r < -1
    · rw [if_pos h3]
      cases r with
      | nil => exfalso; rw [height_nil] at h3; omega
      | node ir rl rh rk rv rr =>
        rw [hOk_node] at hhr
        obtain ⟨hrl, hrr, hrh⟩ := hhr
        rw [balOk_node] at hbr
        obtain ⟨brl, brr, brh⟩ := hbr
        have hrl0 := height_nonneg hrl
        have hrr0 := height_nonneg hrr
        rw [height_node] at h3 hd ⊢
        simp only [bias, child_zero, child_one]
        by_cases h4 : height rl - height rr > 0
        · rw [if_pos h4]
          cases rl with
          | nil => exfalso; rw [height_nil] at h4; omega
          | node j2 a2 rlh k2 v2 b2 =>
            rw [hOk_node] at hrl
            obtain ⟨ha2, hb2, hrlh⟩ := hrl
            rw [balOk_node] at brl
            obtain ⟨ba2, bb2, brlh⟩ := brl
            have ha20 := height_nonneg ha2
            have hb20 := height_nonneg hb2
            rw [height_node] at h4 brh hrh
            rw [rotate_right_node, rotate_left_node]
            refine ⟨?_, ?_, ?_, ?_, ?_, ?_⟩
            · simp only [hOk_node, height_node, hhl, ha2, hb2, hrr, true_and] <;> omega
            · simp only [balOk_node, height_node, hbl, ba2, bb2, brr, true_and] <;> omega
            · simp only [toList_node, List.append_assoc, List.cons_append]
            · simp only [height_node] <;> omega
            · simp only [height_node] <;> omega
            · intro hc; exfalso; omega
        · rw [if_neg h4]
          rw [rotate_left_node]
          refine ⟨?_, ?_, ?_, ?_, ?_, ?_⟩
          · simp only [hOk_node, height_node, hhl, hrl, hrr, true_and] <;> omega
          · simp only [balOk_node, height_node, hbl, brl, brr, true_and] <;> omega
          · simp only [toList_node, List.append_assoc, List.cons_append]
          · simp only [height_node] <;> omega
          · simp only [height_node] <;> omega
          · intro hc; exfalso; omega
    · rw [if_neg h3]
      refine ⟨?_, ?_, ?_, ?_, ?_, ?_⟩
      · simp only [hOk_node, hhl, hhr, true_and]
      · simp only [balOk_node, height_node, hbl, hbr, true_and] <;> omega
      · simp only [toList_node]
      · simp only [height_node] <;> omega
      · simp only [height_node] <;> omega
      · intro hc; simp only [height_node]

theorem inorder_eq_keysL (t : ITree) : inorder t = keysL t := by
  induction t with
  | nil => simp [keysL]
  | node i l h k v r ihl ihr =>
    simp [keysL, ihl, ihr]

theorem insert_hb (zid : Nat) (zk zv : Int) (t : ITree)
    (ht : hOk t = true) (bt : balOk t = true) :
    hOk (insertN t (.node zid .nil 1 zk zv .nil)) = true ∧
    balOk (insertN t (.node zid .nil 1 zk zv .nil)) = true ∧
    (height (insertN t (.node zid .nil 1 zk zv .nil)) = height t ∨
     height (insertN t (.node zid .nil 1 zk zv .nil)) = height t + 1) := by
  induction t with
  | nil =>
    refine ⟨?_, ?_, Or.inr ?_⟩ <;> simp [insertN, hOk, balOk, height]
  | node i l h k v r ihl ihr =>
    rw [hOk_node] at ht
    obtain ⟨hl, hr, hh⟩ := ht
    rw [balOk_node] at bt
    obtain ⟨bl, br, bb⟩ := bt
    obtain ⟨ih1, ih2, ih3⟩ := ihl hl bl
    obtain ⟨jh1, jh2, jh3⟩ := ihr hr br
    have hl0 := height_nonneg hl
    have hr0 := height_nonneg hr
    simp only [insertN, key_node]
    by_cases hc : zk < k
    · rw [if_pos hc]
      obtain ⟨m1, m2, m3, m4, m5, m6⟩ :=
        balance_main i h k v (insertN l (.node zid .nil 1 zk zv .nil)) r ih1 hr ih2 br
          (by omega)
      refine ⟨m1, m2, ?_⟩
      rw [height_node]
      by_cases hdd : (height (insertN l (.node zid .nil 1 zk zv .nil)) - height r).natAbs ≤ 1
      · have := m6 hdd; omega
      · omega
    · rw [if_neg hc]
      obtain ⟨m1, m2, m3, m4, m5, m6⟩ :=
        balance_main i h k v l (insertN r (.node zid .nil 1 zk zv .nil)) hl jh1 bl jh2
          (by omega)
      refine ⟨m1, m2, ?_⟩
      rw [height_node]
      by_cases hdd : (height l - height (insertN r (.node zid .nil 1 zk zv .nil))).natAbs ≤ 1
      · have := m6 hdd; omega
      · omega

theorem insert_toList (zid : Nat) (zk zv : Int) (t : ITree)
    (ht : hOk t = true) (bt : balOk t = true) :
    (toList (insertN t (.node zid .nil 1 zk zv .nil)) : Multiset (Nat × Int × Int)) =
      (zid, zk, zv) ::ₘ (toList t : Multiset (Nat × Int × Int)) := by
  induction t with
  | nil => simp [insertN]
  | node i l h k v r ihl ihr =>
    rw [hOk_node] at ht
    obtain ⟨hl, hr, hh⟩ := ht
    rw [balOk_node] at bt
    obtain ⟨bl, br, bb⟩ := bt
    obtain ⟨ih1, ih2, ih3⟩ := insert_hb zid zk zv l hl bl
    obtain ⟨jh1, jh2, jh3⟩ := insert_hb zid zk zv r hr br
    have hl0 := height_nonneg hl
    have hr0 := height_nonneg hr
    simp only [insertN, key_node]
    by_cases hc : zk < k
    · rw [if_pos hc]
      obtain ⟨m1, m2, m3, m4, m5, m6⟩ :=
        balance_main i h k v (insertN l (.node zid .nil 1 zk zv .nil)) r ih1 hr ih2 br
          (by omega)
      rw [m3, ← Multiset.coe_add, ihl hl bl, Multiset.cons_add, Multiset.coe_add,
        toList_node]
    · rw [if_neg hc]
      obtain ⟨m1, m2, m3, m4, m5, m6⟩ :=
        balance_main i h k v l (insertN r (.node zid .nil 1 zk zv .nil)) hl jh1 bl jh2
          (by omega)
      rw [m3, ← Multiset.coe_add, ← Multiset.cons_coe, ihr hr br, Multiset.cons_swap,
        Multiset.add_cons, Multiset.cons_coe, Multiset.coe_add, toList_node]

theorem insert_keys (zid : Nat) (zk zv : Int) (t : ITree)
    (ht : hOk t = true) (bt : balOk t = true) :
    (inorder (insertN t (.node zid .nil 1 zk zv .nil)) : Multiset Int) =
      zk ::ₘ (inorder t : Multiset Int) := by
  have h2 := congrArg (Multiset.map (fun a : Nat × Int × Int => a.2.1))
    (insert_toList zid zk zv t ht bt)
  rw [Multiset.map_cons, Multiset.map_coe, Multiset.map_coe] at h2
  rw [inorder_eq_keysL, inorder_eq_keysL]
  simp only [keysL]
  exact h2

theorem mem_inorder_insert (zid : Nat) (zk zv : Int) (t : ITree)
    (ht : hOk t = true) (bt : balOk t = true) (a : Int) :
    a ∈ inorder (insertN t (.node zid .nil 1 zk zv .nil)) ↔ a = zk ∨ a ∈ inorder t := by
  rw [← Multiset.mem_coe, insert_keys zid zk zv t ht bt, Multiset.mem_cons,
    Multiset.mem_coe]

theorem bstOk_iff_pairwise (t : ITree) :
    bstOk t = true ↔ List.Pairwise (fun a b : Int => a < b) (inorder t) := by
  induction t with
  | nil => simp [bstOk, inorder_nil]
  | node i l h k v r ihl ihr =>
    rw [inorder_node, List.pairwise_append, List.pairwise_cons]
    simp only [bstOk, Bool.and_eq_true, List.all_eq_true, decide_eq_true_eq, ihl, ihr,
      List.mem_cons]
    constructor
    · rintro ⟨⟨⟨hall, hkr⟩, pl⟩, pr⟩
      refine ⟨pl, ⟨hkr, pr⟩, ?_⟩
      rintro a ha b (rfl | hb)
      · exact hall a ha
      · exact lt_trans (hall a ha) (hkr b hb)
    · rintro ⟨pl, ⟨hkr, pr⟩, hcross⟩
      exact ⟨⟨⟨fun a ha => hcross a ha k (Or.inl rfl), hkr⟩, pl⟩, pr⟩

theorem insert_sorted (zid : Nat) (zk zv : Int) (t : ITree)
    (ht : hOk t = true) (bt : balOk t = true)
    (st : List.Pairwise (fun a b : Int => a < b) (inorder t))
    (hz : zk ∉ inorder t) :
    List.Pairwise (fun a b : Int => a < b)
      (inorder (insertN t (.node zid .nil 1 zk zv .nil))) := by
  induction t with
  | nil => simp [insertN]
  | node i l h k v r ihl ihr =>
    rw [hOk_node] at ht
    obtain ⟨hl, hr, hh⟩ := ht
    rw [balOk_node] at bt
    obtain ⟨bl, br, bb⟩ := bt
    rw [inorder_node] at st hz
    rw [List.pairwise_append, List.pairwise_cons] at st
    obtain ⟨pl, ⟨hkr, pr⟩, hcross⟩ := st
    have hzl : zk ∉ inorder l := fun hm => hz (List.mem_append_left _ hm)
    have hzr : zk ∉ inorder r :=
      fun hm => hz (List.mem_append_right _ (List.mem_cons_of_mem _ hm))
    have hzk : zk ≠ k := fun he => hz (by
      rw [he]; exact List.mem_append_right _ (List.mem_cons_self _ _))
    obtain ⟨ih1, ih2, ih3⟩ := insert_hb zid zk zv l hl bl
    obtain ⟨jh1, jh2, jh3⟩ := insert_hb zid zk zv r hr br
    have hl0 := height_nonneg hl
    have hr0 := height_nonneg hr
    simp only [insertN, key_node]
    by_cases hc : zk < k
    · rw [if_pos hc]
      have m3 := (balance_main i h k v (insertN l (.node zid .nil 1 zk zv .nil)) r
        ih1 hr ih2 br (by omega)).2.2.1
      have hio : inorder (balance (.node i (insertN l (.node zid .nil 1 zk zv .nil)) h k v r)) =
          inorder (insertN l (.node zid .nil 1 zk zv .nil)) ++ k :: inorder r := by
        simp only [inorder_eq_keysL, keysL, m3, List.map_append, List.map_cons]
      rw [hio, List.pairwise_append, List.pairwise_cons]
      refine ⟨ihl hl bl pl hzl, ⟨hkr, pr⟩, ?_⟩
      intro a ha b hb
      have ha2 := (mem_inorder_insert zid zk zv l hl bl a).mp ha
      rcases List.mem_cons.mp hb with rfl | hb2
      · rcases ha2 with rfl | ha3
        · exact hc
        · exact hcross a ha3 b (List.mem_cons.mpr (Or.inl rfl))
      · rcases ha2 with rfl | ha3
        · exact lt_trans hc (hkr b hb2)
        · exact hcross a ha3 b (List.mem_cons.mpr (Or.inr hb2))
    · rw [if_neg hc]
      have hkz : k < zk := by omega
      have m3 := (balance_main i h k v l (insertN r (.node zid .nil 1 zk zv .nil))
        hl jh1 bl jh2 (by omega)).2.2.1
      have hio : inorder (balance (.node i l h k v (insertN r (.node zid .nil 1 zk zv .nil)))) =
          inorder l ++ k :: inorder (insertN r (.node zid .nil 1 zk zv .nil)) := by
        simp only [inorder_eq_keysL, keysL, m3, List.map_append, List.map_cons]
      rw [hio, List.pairwise_append, List.pairwise_cons]
      refine ⟨pl, ⟨?_, ihr hr br pr hzr⟩, ?_⟩
      · intro b hb
        rcases (mem_inorder_insert zid zk zv r hr br b).mp hb with rfl | hb2
        · exact hkz
        · exact hkr b hb2
      · intro a ha b hb
        rcases List.mem_cons.mp hb with rfl | hb2
        · exact hcross a ha b (List.mem_cons.mpr (Or.inl rfl))
        · rcases (mem_inorder_insert zid zk zv r hr br b).mp hb2 with rfl | hb3
          · exact lt_trans (hcross a ha k (List.mem_cons.mpr (Or.inl rfl))) hkz
          · exact hcross a ha b (List.mem_cons.mpr (Or.inr hb3))

theorem eraseN_lt {i : Nat} {h k0 v kk : Int} {l r : ITree} {f : List Nat}
    (hc : kk < k0) :
    eraseN (.node i l h k0 v r) kk f =
      (balance (.node i (eraseN l kk f).1 h k0 v r), (eraseN l kk f).2) := by
  simp [eraseN, hc]

theorem eraseN_gt {i : Nat} {h k0 v kk : Int} {l r : ITree} {f : List Nat}
    (hc1 : ¬ kk < k0) (hc2 : k0 < kk) :
    eraseN (.node i l h k0 v r) kk f =
      (balance (.node i l h k0 v (eraseN r kk f).1), (eraseN r kk f).2) := by
  simp [eraseN, hc1, hc2]

theorem eraseN_eq_rnil {i : Nat} {h k0 v : Int} {l r : ITree} {f : List Nat}
    (hr : r = .nil) :
    eraseN (.node i l h k0 v r) k0 f = (l, i :: f) := by
  simp [eraseN, hr]

theorem eraseN_eq_two {i iw : Nat} {h k0 v wh wk wv : Int} {l r lw rw : ITree}
    {f : List Nat} (hr : r ≠ .nil) (hlm : leftmost r = .node iw lw wh wk wv rw) :
    eraseN (.node i l h k0 v r) k0 f =
      (balance (.node iw l wh wk wv (eraseLM r)), i :: f) := by
  simp [eraseN, hr, hlm]

theorem leftmost_ne_nil {t : ITree} (h : t ≠ .nil) : leftmost t ≠ .nil := by
  induction t with
  | nil => exact absurd rfl h
  | node i l hh k v r ihl ihr =>
    by_cases hl : l = .nil
    · simp [leftmost, hl]
    · simpa [leftmost, hl] using ihl hl

theorem eraseLM_hb (t : ITree) (ht : hOk t = true) (bt : balOk t = true)
    (hne : t ≠ .nil) :
    hOk (eraseLM t) = true ∧ balOk (eraseLM t) = true ∧
    (height (eraseLM t) = height t - 1 ∨ height (eraseLM t) = height t) := by
  induction t with
  | nil => exact absurd rfl hne
  | node i l h k v r ihl ihr =>
    rw [hOk_node] at ht
    obtain ⟨hl, hr, hh⟩ := ht
    rw [balOk_node] at bt
    obtain ⟨bl, br, bb⟩ := bt
    have hl0 := height_nonneg hl
    have hr0 := height_nonneg hr
    by_cases hln : l = .nil
    · simp only [eraseLM, if_pos hln]
      subst hln
      refine ⟨hr, br, ?_⟩
      simp only [height_node, height_nil] at hh ⊢
      omega
    · simp only [eraseLM, if_neg hln]
      obtain ⟨e1, e2, e3⟩ := ihl hl bl hln
      obtain ⟨m1, m2, m3, m4, m5, m6⟩ :=
        balance_main i h k v (eraseLM l) r e1 hr e2 br (by omega)
      refine ⟨m1, m2, ?_⟩
      rw [height_node]
      by_cases hdd : (height (eraseLM l) - height r).natAbs ≤ 1
      · have := m6 hdd; omega
      · omega

theorem leftmost_head (t : ITree) (ht : hOk t = true) (bt : balOk t = true)
    (hne : t ≠ .nil) :
    toList t = (lmId t, lmKey t, lmVal t) :: toList (eraseLM t) := by
  induction t with
  | nil => exact absurd rfl hne
  | node i l h k v r ihl ihr =>
    rw [hOk_node] at ht
    obtain ⟨hl, hr, hh⟩ := ht
    rw [balOk_node] at bt
    obtain ⟨bl, br, bb⟩ := bt
    have hl0 := height_nonneg hl
    have hr0 := height_nonneg hr
    by_cases hln : l = .nil
    · subst hln
      simp [lmId, lmKey, lmVal, leftmost, eraseLM]
    · obtain ⟨e1, e2, e3⟩ := eraseLM_hb l hl bl hln
      obtain ⟨m1, m2, m3, m4, m5, m6⟩ :=
        balance_main i h k v (eraseLM l) r e1 hr e2 br (by omega)
      have hlm : leftmost (.node i l h k v r) = leftmost l := by
        simp [leftmost, hln]
      have hplm : lmId (.node i l h k v r) = lmId l ∧
          lmKey (.node i l h k v r) = lmKey l ∧
          lmVal (.node i l h k v r) = lmVal l := by
        simp [lmId, lmKey, lmVal, hlm]
      obtain ⟨p1, p2, p3⟩ := hplm
      rw [toList_node, ihl hl bl hln, p1, p2, p3]
      have helm : eraseLM (.node i l h k v r) =
          balance (.node i (eraseLM l) h k v r) := by
        simp [eraseLM, hln]
      rw [helm, m3]
      simp

theorem idsL_nil : idsL .nil = [] := rfl

theorem idsL_node {i : Nat} {h k v : Int} {l r : ITree} :
    idsL (.node i l h k v r) = idsL l ++ i :: idsL r := by
  simp [idsL]

theorem ms_shuffle1 {α : Type} {a b c d : Multiset α} (x : Multiset α)
    (h : a + b = c + d) : (a + x) + b = (c + x) + d := by
  calc (a + x) + b = (a + b) + x := by abel
  _ = (c + d) + x := by rw [h]
  _ = (c + x) + d := by abel

theorem ms_shuffle2 {α : Type} {a b c d : Multiset α} (x : Multiset α) (y : α)
    (h : a + b = c + d) : (x + (y ::ₘ a)) + b = (x + (y ::ₘ c)) + d := by
  rw [← Multiset.singleton_add, ← Multiset.singleton_add]
  calc (x + ({y} + a)) + b = (x + {y}) + (a + b) := by abel
  _ = (x + {y}) + (c + d) := by rw [h]
  _ = (x + ({y} + c)) + d := by abel

theorem erase_hb (kk : Int) (t : ITree) (f : List Nat)
    (ht : hOk t = true) (bt : balOk t = true) :
    hOk (eraseN t kk f).1 = true ∧ balOk (eraseN t kk f).1 = true ∧
    (height (eraseN t kk f).1 = height t - 1 ∨ height (eraseN t kk f).1 = height t) := by
  induction t with
  | nil => simp [eraseN, hOk, balOk]
  | node i l h k0 v r ihl ihr =>
    rw [hOk_node] at ht
    obtain ⟨hl, hr, hh⟩ := ht
    rw [balOk_node] at bt
    obtain ⟨bl, br, bb⟩ := bt
    have hl0 := height_nonneg hl
    have hr0 := height_nonneg hr
    by_cases h1 : kk < k0
    · simp only [eraseN_lt h1]
      obtain ⟨e1, e2, e3⟩ := ihl hl bl
      obtain ⟨m1, m2, m3, m4, m5, m6⟩ :=
        balance_main i h k0 v (eraseN l kk f).1 r e1 hr e2 br (by omega)
      refine ⟨m1, m2, ?_⟩
      rw [height_node]
      by_cases hdd : (height (eraseN l kk f).1 - height r).natAbs ≤ 1
      · have := m6 hdd; omega
      · omega
    · by_cases h2 : k0 < kk
      · simp only [eraseN_gt h1 h2]
        obtain ⟨e1, e2, e3⟩ := ihr hr br
        obtain ⟨m1, m2, m3, m4, m5, m6⟩ :=
          balance_main i h k0 v l (eraseN r kk f).1 hl e1 bl e2 (by omega)
        refine ⟨m1, m2, ?_⟩
        rw [height_node]
        by_cases hdd : (height l - height (eraseN r kk f).1).natAbs ≤ 1
        · have := m6 hdd; omega
        · omega
      · have hk : kk = k0 := by omega
        subst hk
        by_cases hrn : r = .nil
        · simp only [eraseN_eq_rnil hrn]
          subst hrn
          refine ⟨hl, bl, ?_⟩
          simp only [height_node, height_nil] at hh ⊢
          omega
        · rcases hlm : leftmost r with _ | ⟨iw, lw, wh, wk, wv, rw2⟩
          · exact absurd hlm (leftmost_ne_nil hrn)
          · simp only [eraseN_eq_two hrn hlm]
            obtain ⟨e1, e2, e3⟩ := eraseLM_hb r hr br hrn
            obtain ⟨m1, m2, m3, m4, m5, m6⟩ :=
              balance_main iw wh wk wv l (eraseLM r) hl e1 bl e2 (by omega)
            refine ⟨m1, m2, ?_⟩
            rw [height_node]
            by_cases hdd : (height l - height (eraseLM r)).natAbs ≤ 1
            · have := m6 hdd; omega
            · omega

theorem erase_ids (kk : Int) (t : ITree) (f : List Nat)
    (ht : hOk t = true) (bt : balOk t = true) :
    (idsL (eraseN t kk f).1 : Multiset Nat) + ((eraseN t kk f).2 : Multiset Nat) =
      (idsL t : Multiset Nat) + (f : Multiset Nat) := by
  induction t with
  | nil => simp [eraseN, idsL_nil]
  | node i l h k0 v r ihl ihr =>
    rw [hOk_node] at ht
    obtain ⟨hl, hr, hh⟩ := ht
    rw [balOk_node] at bt
    obtain ⟨bl, br, bb⟩ := bt
    have hl0 := height_nonneg hl
    have hr0 := height_nonneg hr
    by_cases h1 : kk < k0
    · simp only [eraseN_lt h1]
      obtain ⟨e1, e2, e3⟩ := erase_hb kk l f hl bl
      obtain ⟨m1, m2, m3, m4, m5, m6⟩ :=
        balance_main i h k0 v (eraseN l kk f).1 r e1 hr e2 br (by omega)
      have hib : idsL (balance (.node i (eraseN l kk f).1 h k0 v r)) =
          idsL (eraseN l kk f).1 ++ i :: idsL r := by
        simp only [idsL, m3, List.map_append, List.map_cons]
      rw [hib, idsL_node, ← Multiset.coe_add, ← Multiset.coe_add,
        ← Multiset.cons_coe]
      exact ms_shuffle1 _ (ihl hl bl)
    · by_cases h2 : k0 < kk
      · simp only [eraseN_gt h1 h2]
        obtain ⟨e1, e2, e3⟩ := erase_hb kk r f hr br
        obtain ⟨m1, m2, m3, m4, m5, m6⟩ :=
          balance_main i h k0 v l (eraseN r kk f).1 hl e1 bl e2 (by omega)
        have hib : idsL (balance (.node i l h k0 v (eraseN r kk f).1)) =
            idsL l ++ i :: idsL (eraseN r kk f).1 := by
          simp only [idsL, m3, List.map_append, List.map_cons]
        rw [hib, idsL_node, ← Multiset.coe_add, ← Multiset.coe_add,
          ← Multiset.cons_coe, ← Multiset.cons_coe]
        exact ms_shuffle2 _ _ (ihr hr br)
      · have hk : kk = k0 := by omega
        subst hk
        by_cases hrn : r = .nil
        · simp only [eraseN_eq_rnil hrn]
          subst hrn
          rw [idsL_node, idsL_nil]
          simp only [← Multiset.coe_add, ← Multiset.cons_coe, Multiset.coe_nil,
            ← Multiset.singleton_add]
          abel
        · rcases hlm : leftmost r with _ | ⟨iw, lw, wh, wk, wv, rw2⟩
          · exact absurd hlm (leftmost_ne_nil hrn)
          · simp only [eraseN_eq_two hrn hlm]
            obtain ⟨e1, e2, e3⟩ := eraseLM_hb r hr br hrn
            obtain ⟨m1, m2, m3, m4, m5, m6⟩ :=
              balance_main iw wh wk wv l (eraseLM r) hl e1 bl e2 (by omega)
            have hib : idsL (balance (.node iw l wh wk wv (eraseLM r))) =
                idsL l ++ iw :: idsL (eraseLM r) := by
              simp only [idsL, m3, List.map_append, List.map_cons]
            have hrid : idsL r = iw :: idsL (eraseLM r) := by
              have := leftmost_head r hr br hrn
              have hiw : lmId r = iw := by simp [lmId, hlm]
              rw [idsL, this, List.map_cons, hiw, ← idsL]
            rw [hib, idsL_node, hrid]
            simp only [← Multiset.coe_add, ← Multiset.cons_coe,
              ← Multiset.singleton_add]
            abel

theorem erase_sublist (kk : Int) (t : ITree) (f : List Nat)
    (ht : hOk t = true) (bt : balOk t = true) :
    (eraseN t kk f).1.toList.Sublist t.toList := by
  induction t with
  | nil => simp [eraseN]
  | node i l h k0 v r ihl ihr =>
    rw [hOk_node] at ht
    obtain ⟨hl, hr, hh⟩ := ht
    rw [balOk_node] at bt
    obtain ⟨bl, br, bb⟩ := bt
    have hl0 := height_nonneg hl
    have hr0 := height_nonneg hr
    by_cases h1 : kk < k0
    · simp only [eraseN_lt h1]
      obtain ⟨e1, e2, e3⟩ := erase_hb kk l f hl bl
      obtain ⟨m1, m2, m3, m4, m5, m6⟩ :=
        balance_main i h k0 v (eraseN l kk f).1 r e1 hr e2 br (by omega)
      rw [m3, toList_node]
      exact List.Sublist.append (ihl hl bl) (List.Sublist.refl _)
    · by_cases h2 : k0 < kk
      · simp only [eraseN_gt h1 h2]
        obtain ⟨e1, e2, e3⟩ := erase_hb kk r f hr br
        obtain ⟨m1, m2, m3, m4, m5, m6⟩ :=
          balance_main i h k0 v l (eraseN r kk f).1 hl e1 bl e2 (by omega)
        rw [m3, toList_node]
        exact List.Sublist.append (List.Sublist.refl _)
          (List.Sublist.cons₂ _ (ihr hr br))
      · have hk : kk = k0 := by omega
        subst hk
        by_cases hrn : r = .nil
        · simp only [eraseN_eq_rnil hrn]
          rw [toList_node]
          exact List.sublist_append_left _ _
        · rcases hlm : leftmost r with _ | ⟨iw, lw, wh, wk, wv, rw2⟩
          · exact absurd hlm (leftmost_ne_nil hrn)
          · simp only [eraseN_eq_two hrn hlm]
            obtain ⟨e1, e2, e3⟩ := eraseLM_hb r hr br hrn
            obtain ⟨m1, m2, m3, m4, m5, m6⟩ :=
              balance_main iw wh wk wv l (eraseLM r) hl e1 bl e2 (by omega)
            rw [m3, toList_node]
            have hrt : toList r = (iw, wk, wv) :: toList (eraseLM r) := by
              have hhead := leftmost_head r hr br hrn
              have hiw : lmId r = iw := by simp [lmId, hlm]
              have hwk : lmKey r = wk := by simp [lmKey, hlm]
              have hwv : lmVal r = wv := by simp [lmVal, hlm]
              rw [hhead, hiw, hwk, hwv]
            refine List.Sublist.append (List.Sublist.refl _) ?_
            rw [hrt]
            exact List.sublist_cons_of_sublist _ (List.Sublist.refl _)

theorem erase_not_mem (kk : Int) (t : ITree) (f : List Nat)
    (ht : hOk t = true) (bt : balOk t = true) (hm : kk ∉ inorder t) :
    eraseN t kk f = (t, f) := by
  induction t with
  | nil => simp [eraseN]
  | node i l h k0 v r ihl ihr =>
    rw [hOk_node] at ht
    obtain ⟨hl, hr, hh⟩ := ht
    rw [balOk_node] at bt
    obtain ⟨bl, br, bb⟩ := bt
    have hl0 := height_nonneg hl
    have hr0 := height_nonneg hr
    rw [inorder_node] at hm
    by_cases h1 : kk < k0
    · have hml : kk ∉ inorder l := fun q => hm (List.mem_append_left _ q)
      have hp := ihl hl bl hml
      have hp1 : (eraseN l kk f).1 = l := by rw [hp]
      have hp2 : (eraseN l kk f).2 = f := by rw [hp]
      rw [eraseN_lt h1, hp1, hp2]
      rw [balance_node, if_neg (by omega), if_neg (by omega), ← hh]
    · by_cases h2 : k0 < kk
      · have hmr : kk ∉ inorder r :=
          fun q => hm (List.mem_append_right _ (List.mem_cons_of_mem _ q))
        have hp := ihr hr br hmr
        have hp1 : (eraseN r kk f).1 = r := by rw [hp]
        have hp2 : (eraseN r kk f).2 = f := by rw [hp]
        rw [eraseN_gt h1 h2, hp1, hp2]
        rw [balance_node, if_neg (by omega), if_neg (by omega), ← hh]
      · exfalso
        have hk : kk = k0 := by omega
        exact hm (List.mem_append_right _ (by rw [hk]; exact List.mem_cons_self _ _))

theorem insert_ids (zid : Nat) (zk zv : Int) (t : ITree)
    (ht : hOk t = true) (bt : balOk t = true) :
    (idsL (insertN t (.node zid .nil 1 zk zv .nil)) : Multiset Nat) =
      zid ::ₘ (idsL t : Multiset Nat) := by
  have h2 := congrArg (Multiset.map (fun a : Nat × Int × Int => a.1))
    (insert_toList zid zk zv t ht bt)
  rw [Multiset.map_cons, Multiset.map_coe, Multiset.map_coe] at h2
  simp only [idsL]
  exact h2

theorem hasKey_iff (t : ITree) (k : Int) :
    hasKey t k = true ↔ k ∈ inorder t := by
  simp [hasKey, List.any_eq_true, beq_iff_eq]

end ITree

open ITree in
theorem step_inv {s s2 : AVLState} {o : Op}
    (hh : ITree.hOk s.root = true) (hb : ITree.balOk s.root = true)
    (hp : PoolInv s) (hst : step s o = some s2) :
    ITree.hOk s2.root = true ∧ ITree.balOk s2.root = true ∧ PoolInv s2 ∧
      s2.cap = s.cap := by
  cases o with
  | ins k v =>
    simp only [step, insertPub, createNode] at hst
    cases hf : s.free with
    | nil => rw [hf] at hst; simp at hst
    | cons x rest =>
      rw [hf] at hst
      simp only [] at hst
      obtain ⟨i1, i2, i3⟩ := insert_hb x k v s.root hh hb
      have hids := insert_ids x k v s.root hh hb
      cases hst
      refine ⟨i1, i2, ?_, rfl⟩
      unfold PoolInv at hp ⊢
      simp only [] at hp ⊢
      rw [hids]
      rw [hf, ← Multiset.cons_coe] at hp
      rw [← hp]
      rw [← Multiset.singleton_add, ← Multiset.singleton_add]
      abel
  | del k =>
    simp only [step, erasePub] at hst
    cases hst
    obtain ⟨e1, e2, e3⟩ := erase_hb k s.root s.free hh hb
    refine ⟨e1, e2, ?_, rfl⟩
    unfold PoolInv at hp ⊢
    simp only []
    rw [erase_ids k s.root s.free hh hb]
    exact hp
  | qry k =>
    simp only [step] at hst
    cases hst
    exact ⟨hh, hb, hp, rfl⟩

theorem run_inv : ∀ (ops : List Op) (s s2 : AVLState),
    ITree.hOk s.root = true → ITree.balOk s.root = true → PoolInv s →
    run s ops = some s2 →
    ITree.hOk s2.root = true ∧ ITree.balOk s2.root = true ∧ PoolInv s2 ∧
      s2.cap = s.cap := by
  intro ops
  induction ops with
  | nil =>
    intro s s2 h1 h2 h3 hr
    simp only [run, Option.some.injEq] at hr
    subst hr
    exact ⟨h1, h2, h3, rfl⟩
  | cons o os ih =>
    intro s s2 h1 h2 h3 hr
    simp only [run] at hr
    cases hst : step s o with
    | none => rw [hst] at hr; simp at hr
    | some s1 =>
      rw [hst] at hr
      simp only [] at hr
      obtain ⟨p1, p2, p3, p4⟩ := step_inv h1 h2 h3 hst
      obtain ⟨q1, q2, q3, q4⟩ := ih s1 s2 p1 p2 p3 hr
      exact ⟨q1, q2, q3, q4.trans p4⟩

theorem run_sorted : ∀ (ops : List Op) (s s2 : AVLState),
    ITree.hOk s.root = true → ITree.balOk s.root = true →
    List.Pairwise (fun a b : Int => a < b) (ITree.inorder s.root) →
    insFresh s ops = true → run s ops = some s2 →
    List.Pairwise (fun a b : Int => a < b) (ITree.inorder s2.root) := by
  intro ops
  induction ops with
  | nil =>
    intro s s2 h1 h2 h3 hfr hr
    simp only [run, Option.some.injEq] at hr
    subst hr
    exact h3
  | cons o os ih =>
    intro s s2 h1 h2 h3 hfr hr
    simp only [run] at hr
    cases hst : step s o with
    | none => rw [hst] at hr; simp at hr
    | some s1 =>
      rw [hst] at hr
      simp only [] at hr
      simp only [insFresh, Bool.and_eq_true, hst] at hfr
      obtain ⟨hfr1, hfr2⟩ := hfr
      have hs1 : List.Pairwise (fun a b : Int => a < b) (ITree.inorder s1.root) := by
        cases o with
        | ins k v =>
          simp only [step, insertPub, createNode] at hst
          cases hf : s.free with
          | nil => rw [hf] at hst; simp at hst
          | cons x rest =>
            rw [hf] at hst
            simp only [] at hst
            cases hst
            simp only [Bool.not_eq_true'] at hfr1
            have hz : k ∉ ITree.inorder s.root := by
              intro hm
              rw [← ITree.hasKey_iff] at hm
              rw [hfr1] at hm
              exact Bool.false_ne_true hm
            exact ITree.insert_sorted x k v s.root h1 h2 h3 hz
        | del k =>
          simp only [step, erasePub] at hst
          cases hst
          have hsub := ITree.erase_sublist k s.root s.free h1 h2
          have hsub2 := List.Sublist.map (fun a : Nat × Int × Int => a.2.1) hsub
          rw [ITree.inorder_eq_keysL] at h3 ⊢
          simp only [ITree.keysL] at h3 ⊢
          exact List.Pairwise.sublist hsub2 h3
        | qry k =>
          simp only [step] at hst
          cases hst
          exact h3
      have hp12 : ITree.hOk s1.root = true ∧ ITree.balOk s1.root = true := by
        cases o with
        | ins k v =>
          simp only [step, insertPub, createNode] at hst
          cases hf : s.free with
          | nil => rw [hf] at hst; simp at hst
          | cons x rest =>
            rw [hf] at hst
            simp only [] at hst
            cases hst
            obtain ⟨i1, i2, i3⟩ := ITree.insert_hb x k v s.root h1 h2
            exact ⟨i1, i2⟩
        | del k =>
          simp only [step, erasePub] at hst
          cases hst
          obtain ⟨e1, e2, e3⟩ := ITree.erase_hb k s.root s.free h1 h2
          exact ⟨e1, e2⟩
        | qry k =>
          simp only [step] at hst
          cases hst
          exact ⟨h1, h2⟩
      exact ih s1 s2 hp12.1 hp12.2 hs1 hfr2 hr

namespace ITree

theorem balanceCnt_fst (x : ITree) : (balanceCnt x).1 = balance x := by
  simp only [balanceCnt, balance]
  split_ifs <;> rfl

theorem balanceCnt_le_two (x : ITree) : (balanceCnt x).2 ≤ 2 := by
  simp only [balanceCnt]
  split_ifs <;> simp

theorem balanceCnt_node_easy {i : Nat} {h k v : Int} {l r : ITree}
    (hd : (height l - height r).natAbs ≤ 1) :
    balanceCnt (.node i l h k v r) =
      (.node i l (max (height l) (height r) + 1) k v r, 0) := by
  simp only [balanceCnt, setH_node, reheight, bias, child_zero, child_one]
  rw [if_neg (by omega), if_neg (by omega)]

theorem balanceCnt_node_LR {i : Nat} {h k v : Int} {l r : ITree}
    (hd : height l - height r > 1) (hbl : bias l < 0) :
    balanceCnt (.node i l h k v r) =
      (rotate (.node i (rotate l 0 1) (max (height l) (height r) + 1) k v r) 1 0, 2) := by
  simp only [balanceCnt, setH_node, reheight, bias, child_zero, child_one, setChild_zero]
  rw [if_pos (by omega)]
  simp only [bias] at hbl
  rw [if_pos hbl]

theorem balanceCnt_node_LL {i : Nat} {h k v : Int} {l r : ITree}
    (hd : height l - height r > 1) (hbl : 0 ≤ bias l) :
    balanceCnt (.node i l h k v r) =
      (rotate (.node i l (max (height l) (height r) + 1) k v r) 1 0, 1) := by
  simp only [balanceCnt, setH_node, reheight, bias, child_zero, child_one]
  rw [if_pos (by omega)]
  simp only [bias] at hbl
  rw [if_neg (by omega)]

theorem balanceCnt_node_RL {i : Nat} {h k v : Int} {l r : ITree}
    (hd : height l - height r < -1) (hbr : bias r > 0) :
    balanceCnt (.node i l h k v r) =
      (rotate (.node i l (max (height l) (height r) + 1) k v (rotate r 1 0)) 0 1, 2) := by
  simp only [balanceCnt, setH_node, reheight, bias, child_zero, child_one, setChild_one]
  rw [if_neg (by omega), if_pos (by omega)]
  simp only [bias] at hbr
  rw [if_pos hbr]

theorem balanceCnt_node_RR {i : Nat} {h k v : Int} {l r : ITree}
    (hd : height l - height r < -1) (hbr : bias r ≤ 0) :
    balanceCnt (.node i l h k v r) =
      (rotate (.node i l (max (height l) (height r) + 1) k v r) 0 1, 1) := by
  simp only [balanceCnt, setH_node, reheight, bias, child_zero, child_one]
  rw [if_neg (by omega), if_pos (by omega)]
  simp only [bias] at hbr
  rw [if_neg (by omega)]

theorem rotateO_some {x : ITree} {i j : Int} (hc : child x j ≠ .nil) :
    rotateO x i j = some (rotate x i j) := by
  unfold rotateO
  cases hcc : child x j with
  | nil => exact absurd hcc hc
  | node a b c d e f => rfl

theorem balanceO_node (i : Nat) (h k v : Int) (l r : ITree) :
    balanceO (.node i l h k v r) =
      (if height l - height r > 1 then
        if l = .nil then none
        else if bias l < 0 then
          match rotateO l 0 1 with
          | none => none
          | some c => rotateO (.node i c (max (height l) (height r) + 1) k v r) 1 0
        else rotateO (.node i l (max (height l) (height r) + 1) k v r) 1 0
      else if height l - height r < -1 then
        if r = .nil then none
        else if bias r > 0 then
          match rotateO r 1 0 with
          | none => none
          | some c => rotateO (.node i l (max (height l) (height r) + 1) k v c) 0 1
        else rotateO (.node i l (max (height l) (height r) + 1) k v r) 0 1
      else some (.node i l (max (height l) (height r) + 1) k v r)) := by
  simp only [balanceO, reheight, bias, setH_node, child_zero, child_one,
    setChild_zero, setChild_one]

theorem balanceO_eq (i : Nat) (h k v : Int) (l r : ITree)
    (hhl : hOk l = true) (hhr : hOk r = true)
    (hbl : balOk l = true) (hbr : balOk r = true)
    (hd : (height l - height r).natAbs ≤ 2) :
    balanceO (.node i l h k v r) = some (balance (.node i l h k v r)) := by
  have hl0 := height_nonneg hhl
  have hr0 := height_nonneg hhr
  rw [balanceO_node, balance_node]
  by_cases h1 : height l - height r > 1
  · rw [if_pos h1, if_pos h1]
    cases l with
    | nil => exfalso; rw [height_nil] at h1; omega
    | node il ll lh lk lv lr =>
      rw [if_neg (by simp)]
      rw [hOk_node] at hhl
      obtain ⟨hll, hlr, hlh⟩ := hhl
      rw [balOk_node] at hbl
      obtain ⟨bll, blr, blh⟩ := hbl
      have hll0 := height_nonneg hll
      have hlr0 := height_nonneg hlr
      rw [height_node] at h1 hd
      simp only [bias, child_zero, child_one]
      by_cases h2 : height ll - height lr < 0
      · rw [if_pos h2, if_pos h2]
        cases lr with
        | nil => exfalso; rw [height_nil] at h2; omega
        | node j2 a2 lrh k2 v2 b2 =>
          rw [rotateO_some
            (show child (.node il ll lh lk lv (.node j2 a2 lrh k2 v2 b2)) (1 : Int) ≠ .nil
              by simp [child_one])]
          rfl
      · rw [if_neg h2, if_neg h2]
        rfl
  · rw [if_neg h1, if_neg h1]
    by_cases h3 : height l - height r < -1
    · rw [if_pos h3, if_pos h3]
      cases r with
      | nil => exfalso; rw [height_nil] at h3; omega
      | node ir rl rh rk rv rr =>
        rw [if_neg (by simp)]
        rw [hOk_node] at hhr
        obtain ⟨hrl, hrr, hrh⟩ := hhr
        rw [balOk_node] at hbr
        obtain ⟨brl, brr, brh⟩ := hbr
        have hrl0 := height_nonneg hrl
        have hrr0 := height_nonneg hrr
        rw [height_node] at h3 hd
        simp only [bias, child_zero, child_one]
        by_cases h4 : height rl - height rr > 0
        · rw [if_pos h4, if_pos h4]
          cases rl with
          | nil => exfalso; rw [height_nil] at h4; omega
          | node j2 a2 rlh k2 v2 b2 =>
            rw [rotateO_some
              (show child (.node ir (.node j2 a2 rlh k2 v2 b2) rh rk rv rr) (0 : Int) ≠ .nil
                by simp [child_zero])]
            rfl
        · rw [if_neg h4, if_neg h4]
          rfl
    · rw [if_neg h3, if_neg h3]

end ITree

/-- C1: the spec claims `find(k)` returns the stored value whenever a node
with an equivalent key is present, descending left when the search key
compares less than the current key.  The code's loop tests
`cmp_(x->key, k)` — current key less than search key — and then descends
LEFT, i.e. the opposite direction: after inserting keys 1 then 2 (key 2 is
the right child of the root), `find(2)` walks left into the null child and
reports absent although a node with key 2 is live in the tree, contradicting
the function's own documentation. -/
theorem find_misses_present_key :
    ITree.hasKey (stOf (run (avlNew 4) [Op.ins 1 10, Op.ins 2 20])).root 2 = true ∧
    findPub (stOf (run (avlNew 4) [Op.ins 1 10, Op.ins 2 20])) 2 = none := by
  decide

/-- C2 (counterexample): the claim quantifies over every sequence of public
inserts/finds/erases, but inserting the same key twice is such a sequence and
it yields two nodes carrying key 1 (in-order keys `[1, 1]`), violating key
uniqueness and BST order. -/
theorem dup_insert_breaks_inv :
    ITree.inorder (stOf (run (avlNew 2) [Op.ins 1 10, Op.ins 1 20])).root = [1, 1] ∧
    ¬ AVLInv (stOf (run (avlNew 2) [Op.ins 1 10, Op.ins 1 20])).root := by
  unfold AVLInv
  decide

/-- C2 (amended): after every sequence of public insert, find and erase
operations from a freshly constructed tree IN WHICH EVERY INSERTED KEY IS
ABSENT AT ITS INSERTION TIME, every node satisfies BST order, key
uniqueness, stored-height correctness, and the AVL balance bound.  (A
duplicate-key insert adds a second equivalent node instead of overwriting,
so the freshness restriction is necessary.) -/
theorem run_preserves_invariants (n : Nat) (ops : List Op) (s : AVLState)
    (hr : run (avlNew n) ops = some s) (hf : insFresh (avlNew n) ops = true) :
    AVLInv s.root := by
  have h0p : PoolInv (avlNew n) := by
    simp [PoolInv, avlNew, ITree.idsL, ITree.toList]
  obtain ⟨q1, q2, q3, q4⟩ := run_inv ops (avlNew n) s rfl rfl h0p hr
  have hsort := run_sorted ops (avlNew n) s rfl rfl (by exact List.Pairwise.nil) hf hr
  refine ⟨(ITree.bstOk_iff_pairwise s.root).mpr hsort, ?_, q1, q2⟩
  exact List.Pairwise.imp (fun hab => ne_of_lt hab) hsort

/-- Witness for C2 at a concrete run: three fresh inserts and one erase. -/
theorem run_preserves_invariants_witness :
    AVLInv (stOf (run (avlNew 4) [Op.ins 2 20, Op.ins 1 10, Op.ins 3 30, Op.del 2])).root :=
  run_preserves_invariants 4 [Op.ins 2 20, Op.ins 1 10, Op.ins 3 30, Op.del 2]
    (stOf (run (avlNew 4) [Op.ins 2 20, Op.ins 1 10, Op.ins 3 30, Op.del 2]))
    rfl (by decide)

/-- C3 (counterexample): the claim says a second insert of an equivalent key
overwrites in place, returns the previous value and leaves the live-node
count unchanged, with `find` then yielding the new value.  In the code
`insert` returns void, always allocates (`size_` and the live-node count
grow to 2), the equivalent key descends right and a second node is linked;
at this concrete input `find(1)` moreover answers the first value 10, not
the claimed new value 20 (which of the two equivalent nodes a later `find`
reports depends on the rebalanced shape, so no fixed answer value can be
claimed in general). -/
theorem insert_duplicate_no_overwrite :
    ITree.countNodes (stOf (run (avlNew 2) [Op.ins 1 10, Op.ins 1 20])).root = 2 ∧
    findPub (stOf (run (avlNew 2) [Op.ins 1 10, Op.ins 1 20])) 1 = some 10 ∧
    (stOf (run (avlNew 2) [Op.ins 1 10, Op.ins 1 20])).size = 2 := by
  decide

/-- C3 (amended): inserting a key equivalent to one already in the tree does
not overwrite anything and returns nothing (the member is void): a fresh
node is allocated and linked, the live-node count grows by exactly one, and
the tree then holds at least two nodes with that key.  Which of the
equivalent nodes a subsequent `find(k)` reports is not fixed: it depends on
the shape produced by rebalancing. -/
theorem insert_duplicate_adds_node (t : ITree) (zid : Nat) (zk zv : Int)
    (ht : ITree.hOk t = true) (bt : ITree.balOk t = true)
    (hk : zk ∈ ITree.inorder t) :
    ITree.countNodes (ITree.insertN t (.node zid .nil 1 zk zv .nil)) =
      ITree.countNodes t + 1 ∧
    2 ≤ Multiset.count zk
      (ITree.inorder (ITree.insertN t (.node zid .nil 1 zk zv .nil)) : Multiset Int) := by
  constructor
  · have hc := congrArg Multiset.card (ITree.insert_toList zid zk zv t ht bt)
    rw [Multiset.card_cons, Multiset.coe_card, Multiset.coe_card] at hc
    exact hc
  · rw [ITree.insert_keys zid zk zv t ht bt, Multiset.count_cons_self]
    have h1 : 1 ≤ Multiset.count zk (ITree.inorder t : Multiset Int) :=
      Multiset.one_le_count_iff_mem.mpr (Multiset.mem_coe.mpr hk)
    omega

/-- Witness for C3 (amended) at a one-node tree holding key 1. -/
theorem insert_duplicate_adds_node_witness :
    ITree.countNodes (ITree.insertN (.node 0 .nil 1 1 10 .nil) (.node 1 .nil 1 1 20 .nil)) =
      ITree.countNodes (ITree.node 0 .nil 1 1 10 .nil) + 1 ∧
    2 ≤ Multiset.count 1
      (ITree.inorder (ITree.insertN (.node 0 .nil 1 1 10 .nil)
        (.node 1 .nil 1 1 20 .nil)) : Multiset Int) :=
  insert_duplicate_adds_node (.node 0 .nil 1 1 10 .nil) 1 1 20
    (by decide) (by decide) (by decide)

/-- C4 (counterexample): the claim says erasing an absent key performs no
mutation, the live-node count included.  The in-order key sequence and the
node heights are indeed untouched, but `erase` decrements `size_`
unconditionally: after one insert (`size_ = 1`, one live node), erasing the
absent key 2 leaves the one node in place yet drops `size_` to 0. -/
theorem erase_absent_changes_size :
    (erasePub (stOf (run (avlNew 2) [Op.ins 1 10])) 2).root =
      (stOf (run (avlNew 2) [Op.ins 1 10])).root ∧
    ITree.countNodes (erasePub (stOf (run (avlNew 2) [Op.ins 1 10])) 2).root = 1 ∧
    (stOf (run (avlNew 2) [Op.ins 1 10])).size = 1 ∧
    (erasePub (stOf (run (avlNew 2) [Op.ins 1 10])) 2).size = 0 := by
  decide

/-- C4 (amended): erasing a key with no equivalent node returns nothing
(the member function is void) and leaves the root, every node, every stored
height and the free list exactly unchanged; the only mutation is the
unconditional `size_--`, which wraps modulo `2 ^ 64` at zero, so the stored
size counter no longer matches the live-node count. -/
theorem erase_absent_only_size (s : AVLState) (k : Int)
    (hh : ITree.hOk s.root = true) (hb : ITree.balOk s.root = true)
    (hm : k ∉ ITree.inorder s.root) :
    erasePub s k = { s with size := (s.size + (W - 1)) % W } := by
  have hp := ITree.erase_not_mem k s.root s.free hh hb hm
  have hp1 : (ITree.eraseN s.root k s.free).1 = s.root := by rw [hp]
  have hp2 : (ITree.eraseN s.root k s.free).2 = s.free := by rw [hp]
  simp only [erasePub, hp1, hp2]

/-- Witness for C4 (amended): erasing the absent key 3 from a one-node tree. -/
theorem erase_absent_only_size_witness :
    erasePub (stOf (run (avlNew 2) [Op.ins 1 10])) 3 =
      { stOf (run (avlNew 2) [Op.ins 1 10]) with
          size := ((stOf (run (avlNew 2) [Op.ins 1 10])).size + (W - 1)) % W } :=
  erase_absent_only_size (stOf (run (avlNew 2) [Op.ins 1 10])) 3
    (by decide) (by decide) (by decide)

/-- C5 (counterexample): the claim says a full allocator makes `insert` fail
with a recoverable capacity-exhausted result and not a fatal abort.  In the
code `create_node` does return null, but the public `insert` immediately
runs `assert(z != nullptr)` on it — a fatal assertion failure, not a result
the caller can check: with capacity 1 already holding one node, the next
insert hits the assertion. -/
theorem insert_full_hits_assert :
    insertPub (stOf (run (avlNew 1) [Op.ins 1 10])) 2 20 = InsResult.assertFail := by
  decide

/-- C5 (amended): whenever the free list is empty, `create_node` returns
null and the public `insert` fails its `assert(z != nullptr)` — a fatal
abort taken before any tree mutation (so the tree is unchanged at the abort
point), not a recoverable capacity-exhausted return value. -/
theorem insert_full_assert_fails (s : AVLState) (k v : Int) (hf : s.free = []) :
    insertPub s k v = InsResult.assertFail := by
  simp [insertPub, createNode, hf]

/-- Witness for C5 (amended): a capacity-0 tree has an empty free list. -/
theorem insert_full_assert_fails_witness :
    insertPub (avlNew 0) 5 50 = InsResult.assertFail :=
  insert_full_assert_fails (avlNew 0) 5 50 rfl

/-- C6: erasing a key held by a node with two children splices the in-order
successor structurally: with `y = x->left`, `z = x->right`, the erased
subtree becomes `balance(w)` where `w = leftmost(z)` keeps its own slot id,
key and value, receives the remainder `erase__(z)` as right child and `y`
as left child; no value is copied into the removed node — the removed
node's own slot id `i` is pushed onto the free list (immediately after its
children are captured) and no longer reachable in the tree, while the
successor's slot id stays live. -/
theorem erase_two_children_splice (i iw : Nat) (l r lw rw2 : ITree)
    (h k v wh wk wv : Int) (f : List Nat)
    (hh : ITree.hOk (.node i l h k v r) = true)
    (hb : ITree.balOk (.node i l h k v r) = true)
    (hnd : (ITree.idsL (.node i l h k v r)).Nodup)
    (hln : l ≠ .nil) (hrn : r ≠ .nil)
    (hlm : ITree.leftmost r = .node iw lw wh wk wv rw2) :
    ITree.eraseN (.node i l h k v r) k f =
      (ITree.balance (.node iw l wh wk wv (ITree.eraseLM r)), i :: f) ∧
    ITree.toList r = (iw, wk, wv) :: ITree.toList (ITree.eraseLM r) ∧
    ITree.toList (ITree.eraseN (.node i l h k v r) k f).1 =
      ITree.toList l ++ ITree.toList r ∧
    iw ∈ ITree.idsL (ITree.eraseN (.node i l h k v r) k f).1 ∧
    i ∉ ITree.idsL (ITree.eraseN (.node i l h k v r) k f).1 := by
  rw [ITree.hOk_node] at hh
  obtain ⟨hl, hr, hhh⟩ := hh
  rw [ITree.balOk_node] at hb
  obtain ⟨bl, br, bb⟩ := hb
  have he := @ITree.eraseN_eq_two i iw h k v wh wk wv l r lw rw2 f hrn hlm
  have hp1 : (ITree.eraseN (.node i l h k v r) k f).1 =
      ITree.balance (.node iw l wh wk wv (ITree.eraseLM r)) := by rw [he]
  have hhead := ITree.leftmost_head r hr br hrn
  have hiw : ITree.lmId r = iw := by simp [ITree.lmId, hlm]
  have hwk : ITree.lmKey r = wk := by simp [ITree.lmKey, hlm]
  have hwv : ITree.lmVal r = wv := by simp [ITree.lmVal, hlm]
  have hrt : ITree.toList r = (iw, wk, wv) :: ITree.toList (ITree.eraseLM r) := by
    rw [hhead, hiw, hwk, hwv]
  obtain ⟨e1, e2, e3⟩ := ITree.eraseLM_hb r hr br hrn
  have hl0 := ITree.height_nonneg hl
  have hr0 := ITree.height_nonneg hr
  obtain ⟨m1, m2, m3, m4, m5, m6⟩ :=
    ITree.balance_main iw wh wk wv l (ITree.eraseLM r) hl e1 bl e2 (by omega)
  have ht3 : ITree.toList (ITree.eraseN (.node i l h k v r) k f).1 =
      ITree.toList l ++ ITree.toList r := by
    rw [hp1, m3, hrt]
  have hids : ITree.idsL (ITree.eraseN (.node i l h k v r) k f).1 =
      ITree.idsL l ++ ITree.idsL r := by
    simp only [ITree.idsL, ht3, List.map_append]
  have hiwr : iw ∈ ITree.idsL r := by
    simp only [ITree.idsL, hrt, List.map_cons]
    exact List.mem_cons_self _ _
  rw [ITree.idsL_node] at hnd
  rw [List.nodup_append] at hnd
  obtain ⟨nd1, nd2, nddis⟩ := hnd
  rw [List.nodup_cons] at nd2
  obtain ⟨hir, ndr⟩ := nd2
  have hil : i ∉ ITree.idsL l := fun him => nddis him (List.mem_cons_self _ _)
  refine ⟨he, hrt, ht3, ?_, ?_⟩
  · rw [hids]
    exact List.mem_append_right _ hiwr
  · rw [hids]
    intro hmem
    rcases List.mem_append.mp hmem with hm1 | hm2
    · exact hil hm1
    · exact hir hm2

/-- Witness for C6: erase the root (key 2, two children) of a three-node
tree; slot 0 is released, the successor (slot 2, key 3) is re-rooted. -/
theorem erase_two_children_splice_witness :
    ITree.eraseN (.node 0 (.node 1 .nil 1 1 10 .nil) 2 2 20 (.node 2 .nil 1 3 30 .nil)) 2 [5] =
      (ITree.balance (.node 2 (.node 1 .nil 1 1 10 .nil) 1 3 30
        (ITree.eraseLM (.node 2 .nil 1 3 30 .nil))), 0 :: [5]) ∧
    ITree.toList (ITree.node 2 .nil 1 3 30 .nil) =
      (2, 3, 30) :: ITree.toList (ITree.eraseLM (.node 2 .nil 1 3 30 .nil)) ∧
    ITree.toList (ITree.eraseN (.node 0 (.node 1 .nil 1 1 10 .nil) 2 2 20
        (.node 2 .nil 1 3 30 .nil)) 2 [5]).1 =
      ITree.toList (ITree.node 1 .nil 1 1 10 .nil) ++ ITree.toList (ITree.node 2 .nil 1 3 30 .nil) ∧
    2 ∈ ITree.idsL (ITree.eraseN (.node 0 (.node 1 .nil 1 1 10 .nil) 2 2 20
        (.node 2 .nil 1 3 30 .nil)) 2 [5]).1 ∧
    0 ∉ ITree.idsL (ITree.eraseN (.node 0 (.node 1 .nil 1 1 10 .nil) 2 2 20
        (.node 2 .nil 1 3 30 .nil)) 2 [5]).1 :=
  erase_two_children_splice 0 2 (.node 1 .nil 1 1 10 .nil) (.node 2 .nil 1 3 30 .nil)
    .nil .nil 2 2 20 1 3 30 [5]
    (by decide) (by decide) (by decide) (by decide) (by decide) (by decide)

/-- C7: the rebalance step first recomputes the node's stored height, then
performs no rotation when the balance factor is within ±1; when the factor
exceeds 1 it rotates the node right, preceded by a left rotation of the
left child exactly when that child's factor is negative; symmetrically when
the factor is below −1; at most two rotations ever occur per step
(`balanceCnt` counts the `rotate` calls and projects to `balance`); and a
single rotation re-parents exactly one grandchild subtree (`b`), leaves the
subtrees `a`, `b`, `c` — their stored heights included — untouched, and
recomputes exactly the two involved nodes' heights. -/
theorem balance_rotation_discipline :
    (∀ x : ITree, (ITree.balanceCnt x).1 = ITree.balance x) ∧
    (∀ x : ITree, (ITree.balanceCnt x).2 ≤ 2) ∧
    (∀ (i j : Nat) (a b c : ITree) (h h2 k v k2 v2 : Int),
      ITree.rotate (.node i a h k v (.node j b h2 k2 v2 c)) 0 1 =
        .node j (.node i a (max (ITree.height a) (ITree.height b) + 1) k v b)
          (max (max (ITree.height a) (ITree.height b) + 1) (ITree.height c) + 1) k2 v2 c) ∧
    (∀ (i j : Nat) (a b c : ITree) (h h2 k v k2 v2 : Int),
      ITree.rotate (.node i (.node j a h2 k2 v2 b) h k v c) 1 0 =
        .node j a (max (ITree.height a) (max (ITree.height b) (ITree.height c) + 1) + 1) k2 v2
          (.node i b (max (ITree.height b) (ITree.height c) + 1) k v c)) ∧
    (∀ (i : Nat) (h k v : Int) (l r : ITree),
      (ITree.height l - ITree.height r).natAbs ≤ 1 →
      ITree.balanceCnt (.node i l h k v r) =
        (.node i l (max (ITree.height l) (ITree.height r) + 1) k v r, 0)) ∧
    (∀ (i : Nat) (h k v : Int) (l r : ITree),
      ITree.height l - ITree.height r > 1 → ITree.bias l < 0 →
      ITree.balanceCnt (.node i l h k v r) =
        (ITree.rotate (.node i (ITree.rotate l 0 1)
          (max (ITree.height l) (ITree.height r) + 1) k v r) 1 0, 2)) ∧
    (∀ (i : Nat) (h k v : Int) (l r : ITree),
      ITree.height l - ITree.height r > 1 → 0 ≤ ITree.bias l →
      ITree.balanceCnt (.node i l h k v r) =
        (ITree.rotate (.node i l (max (ITree.height l) (ITree.height r) + 1) k v r) 1 0, 1)) ∧
    (∀ (i : Nat) (h k v : Int) (l r : ITree),
      ITree.height l - ITree.height r < -1 → ITree.bias r > 0 →
      ITree.balanceCnt (.node i l h k v r) =
        (ITree.rotate (.node i l (max (ITree.height l) (ITree.height r) + 1) k v
          (ITree.rotate r 1 0)) 0 1, 2)) ∧
    (∀ (i : Nat) (h k v : Int) (l r : ITree),
      ITree.height l - ITree.height r < -1 → ITree.bias r ≤ 0 →
      ITree.balanceCnt (.node i l h k v r) =
        (ITree.rotate (.node i l (max (ITree.height l) (ITree.height r) + 1) k v r) 0 1, 1)) :=
  ⟨ITree.balanceCnt_fst, ITree.balanceCnt_le_two,
    ITree.rotate_left_node, ITree.rotate_right_node,
    fun _ _ _ _ _ _ hd => ITree.balanceCnt_node_easy hd,
    fun _ _ _ _ _ _ hd hb => ITree.balanceCnt_node_LR hd hb,
    fun _ _ _ _ _ _ hd hb => ITree.balanceCnt_node_LL hd hb,
    fun _ _ _ _ _ _ hd hb => ITree.balanceCnt_node_RL hd hb,
    fun _ _ _ _ _ _ hd hb => ITree.balanceCnt_node_RR hd hb⟩

/-- Witness for C7: the conditional conjuncts applied at concrete nodes — a
balanced node performs no rotation, and a left-heavy node whose left child
is right-heavy performs the double rotation (count 2). -/
theorem balance_rotation_discipline_witness :
    ITree.balanceCnt (.node 0 (.node 1 .nil 1 1 10 .nil) 2 2 20 .nil) =
      (.node 0 (.node 1 .nil 1 1 10 .nil)
        (max (ITree.height (ITree.node 1 .nil 1 1 10 .nil)) (ITree.height ITree.nil) + 1)
        2 20 .nil, 0) ∧
    ITree.balanceCnt (.node 0 (.node 1 .nil 2 1 0 (.node 2 .nil 1 2 0 .nil)) 9 5 5 .nil) =
      (ITree.rotate (.node 0 (ITree.rotate (.node 1 .nil 2 1 0 (.node 2 .nil 1 2 0 .nil)) 0 1)
        (max (ITree.height (ITree.node 1 .nil 2 1 0 (.node 2 .nil 1 2 0 .nil)))
          (ITree.height ITree.nil) + 1) 5 5 .nil) 1 0, 2) := by
  have hth := balance_rotation_discipline
  exact ⟨hth.2.2.2.2.1 0 2 2 20 (.node 1 .nil 1 1 10 .nil) .nil (by decide),
    hth.2.2.2.2.2.1 0 9 5 5 (.node 1 .nil 2 1 0 (.node 2 .nil 1 2 0 .nil)) .nil
      (by decide) (by decide)⟩

/-- C8 (counterexample): the claim promises strictly ascending keys for
every tree reachable by inserts and erases, but the reachable tree produced
by inserting key 1 twice traverses as `[1, 1]`, which is not strictly
ascending; the visitor moreover only ever receives the key (the code calls
`fn(x->key)`), not a (key, value) pair. -/
theorem inorder_dup_not_strict :
    ITree.inorder (stOf (run (avlNew 2) [Op.ins 1 10, Op.ins 1 20])).root = [1, 1] ∧
    ¬ List.Chain' (fun a b : Int => a < b)
      (ITree.inorder (stOf (run (avlNew 2) [Op.ins 1 10, Op.ins 1 20])).root) := by
  have he : ITree.inorder (stOf (run (avlNew 2) [Op.ins 1 10, Op.ins 1 20])).root = [1, 1] := by
    decide
  refine ⟨he, ?_⟩
  intro hc
  rw [he, List.chain'_cons] at hc
  exact absurd hc.1 (by decide)

/-- C8 (amended): the traversal is the pure recursive
left-subtree / key / right-subtree visit (the visitor receives keys only,
and a fresh call on an unchanged tree trivially reproduces the same
sequence since `inorder` is a function of the tree); on every tree
satisfying BST order the key sequence is strictly ascending, and its length
always equals the live-node count.  Strict ascent requires BST order, which
duplicate-key inserts destroy. -/
theorem inorder_spec (t : ITree) (hb : ITree.bstOk t = true) :
    List.Chain' (fun a b : Int => a < b) (ITree.inorder t) ∧
    (ITree.inorder t).length = ITree.countNodes t ∧
    (∀ (i : Nat) (l r : ITree) (h k v : Int),
      ITree.inorder (.node i l h k v r) = ITree.inorder l ++ k :: ITree.inorder r) := by
  refine ⟨List.Pairwise.chain' ((ITree.bstOk_iff_pairwise t).mp hb), ?_,
    fun i l r h k v => ITree.inorder_node⟩
  rw [ITree.inorder_eq_keysL]
  simp [ITree.keysL, ITree.countNodes]

/-- Witness for C8 (amended) on a concrete three-node BST. -/
theorem inorder_spec_witness :
    List.Chain' (fun a b : Int => a < b)
      (ITree.inorder (.node 0 (.node 1 .nil 1 1 10 .nil) 2 2 20 (.node 2 .nil 1 3 30 .nil))) ∧
    (ITree.inorder (ITree.node 0 (.node 1 .nil 1 1 10 .nil) 2 2 20
      (.node 2 .nil 1 3 30 .nil))).length =
      ITree.countNodes (.node 0 (.node 1 .nil 1 1 10 .nil) 2 2 20 (.node 2 .nil 1 3 30 .nil)) :=
  ⟨(inorder_spec (.node 0 (.node 1 .nil 1 1 10 .nil) 2 2 20 (.node 2 .nil 1 3 30 .nil))
      (by decide)).1,
   (inorder_spec (.node 0 (.node 1 .nil 1 1 10 .nil) 2 2 20 (.node 2 .nil 1 3 30 .nil))
      (by decide)).2.1⟩

/-- C9: along every operation sequence from a fresh capacity-`n` tree, each
pool slot is reachable from the root or threaded on the free list — exactly
once and in exactly one of the two (the multiset of tree slot ids plus free
slot ids is exactly `0..cap-1`, and per slot the two multiplicities sum to
1) — so a slot released by erase is reacquirable, and while the live-node
count is below capacity an insert never hits the capacity-exhausted
assertion. -/
theorem pool_recycling (n : Nat) (ops : List Op) (s : AVLState)
    (hr : run (avlNew n) ops = some s) :
    PoolInv s ∧ s.cap = n ∧
    (∀ j : Nat, j < s.cap →
      List.count j (ITree.idsL s.root) + List.count j s.free = 1) ∧
    (ITree.countNodes s.root < s.cap →
      ∀ k v : Int, insertPub s k v ≠ InsResult.assertFail) := by
  have h0p : PoolInv (avlNew n) := by
    simp [PoolInv, avlNew, ITree.idsL, ITree.toList]
  obtain ⟨q1, q2, q3, q4⟩ := run_inv ops (avlNew n) s rfl rfl h0p hr
  refine ⟨q3, q4, ?_, ?_⟩
  · intro j hj
    have hcnt := congrArg (Multiset.count j) q3
    rw [Multiset.count_add, Multiset.coe_count, Multiset.coe_count,
      Multiset.coe_count] at hcnt
    have hone : List.count j (List.range s.cap) = 1 :=
      List.count_eq_one_of_mem (List.nodup_range _) (List.mem_range.mpr hj)
    omega
  · intro hcount k v
    have hcard := congrArg Multiset.card q3
    rw [Multiset.card_add, Multiset.coe_card, Multiset.coe_card,
      Multiset.coe_card, List.length_range] at hcard
    have hlen : (ITree.idsL s.root).length = ITree.countNodes s.root := by
      simp [ITree.idsL, ITree.countNodes]
    cases hf : s.free with
    | nil =>
      exfalso
      rw [hf] at hcard
      simp at hcard
      omega
    | cons x rest =>
      simp [insertPub, createNode, hf]

/-- Witness for C9: capacity 2, fill to capacity, erase one, insert again —
the erased slot is reused and the invariant holds at the end. -/
theorem pool_recycling_witness :
    PoolInv (stOf (run (avlNew 2) [Op.ins 1 10, Op.ins 2 20, Op.del 1, Op.ins 3 30])) ∧
    (stOf (run (avlNew 2) [Op.ins 1 10, Op.ins 2 20, Op.del 1, Op.ins 3 30])).cap = 2 := by
  have hth := pool_recycling 2 [Op.ins 1 10, Op.ins 2 20, Op.del 1, Op.ins 3 30]
    (stOf (run (avlNew 2) [Op.ins 1 10, Op.ins 2 20, Op.del 1, Op.ins 3 30])) rfl
  exact ⟨hth.1, hth.2.1⟩

/-- C10: on a node whose stored heights are correct, whose subtrees are each
height-balanced and whose children's heights differ by at most 2, the
rebalance step never dereferences a null pointer: the guarded `balanceO`
(which returns `none` exactly where `balance` would dereference null — at
`x`, at the child inspected by the inner `bias` call, and at each rotation
pivot `x2->c[j]`) is defined and agrees with the unguarded `balance`. -/
theorem balance_never_derefs_null (i : Nat) (h k v : Int) (l r : ITree)
    (hhl : ITree.hOk l = true) (hhr : ITree.hOk r = true)
    (hbl : ITree.balOk l = true) (hbr : ITree.balOk r = true)
    (hd : (ITree.height l - ITree.height r).natAbs ≤ 2) :
    ITree.balanceO (.node i l h k v r) = some (ITree.balance (.node i l h k v r)) :=
  ITree.balanceO_eq i h k v l r hhl hhr hbl hbr hd

/-- Witness for C10 on a left-heavy node requiring the double rotation. -/
theorem balance_never_derefs_null_witness :
    ITree.balanceO (.node 0 (.node 1 .nil 2 1 0 (.node 2 .nil 1 2 0 .nil)) 9 5 5 .nil) =
      some (ITree.balance (.node 0 (.node 1 .nil 2 1 0 (.node 2 .nil 1 2 0 .nil)) 9 5 5 .nil)) :=
  balance_never_derefs_null 0 9 5 5 (.node 1 .nil 2 1 0 (.node 2 .nil 1 2 0 .nil)) .nil
    (by decide) (by decide) (by decide) (by decide) (by decide)
